import Mathlib

/-!
Verification of the GPT fast-tokenizer adapter (tokenization_gpt_fast.py)
and of the BPE tokenizer engine its specification describes.

The adapter class `GPTTokenizerFast` is embedded directly from the source:
its class attributes, constructor defaults, the `do_lower_case` property
and `save_vocabulary`.  The BPE engine (vocabulary table, merge-rank
table, merge loop, persistence) is not part of the source fragment — the
adapter delegates to an external fast-tokenizer library — so those parts
are modelled from the specification, as marked on each definition.
-/

set_option maxHeartbeats 1000000

/-- Embeds `VOCAB_FILES_NAMES` from the source: file-kind to file name. -/
def VOCAB_FILES_NAMES : List (String × String) :=
  [("vocab_file", "vocab.json"), ("merges_file", "merges.txt"),
   ("tokenizer_file", "tokenizer.json")]

/-- Embeds `PRETRAINED_POSITIONAL_EMBEDDINGS_SIZES` from the source:
checkpoint name to maximum model input size. -/
def PRETRAINED_POSITIONAL_EMBEDDINGS_SIZES : List (String × Nat) :=
  [("openai-gpt", 512)]

/-- Embeds the `GPTTokenizerFast` instance state set up by `__init__`:
the three optional file arguments and the unknown-token string. -/
structure GPTTokenizerFast where
  vocab_file : Option String
  merges_file : Option String
  tokenizer_file : Option String
  unk_token : String
deriving Repr, DecidableEq

/-- Embeds the class attribute `max_model_input_sizes`, which the source
sets to `PRETRAINED_POSITIONAL_EMBEDDINGS_SIZES`. -/
def GPTTokenizerFast.max_model_input_sizes : List (String × Nat) :=
  PRETRAINED_POSITIONAL_EMBEDDINGS_SIZES

/-- Embeds `GPTTokenizerFast.__init__`: all three file arguments are
optional (default `None`), and `unk_token` defaults to the string
`"<unk>"` when not supplied (`none` models a call omitting it). -/
def GPTTokenizerFast.init (vocab_file merges_file tokenizer_file : Option String)
    (unk_token : Option String) : GPTTokenizerFast :=
  ⟨vocab_file, merges_file, tokenizer_file, unk_token.getD "<unk>"⟩

/-- Embeds the `do_lower_case` property of `GPTTokenizerFast`: the
source body is the single statement `return True`. -/
def GPTTokenizerFast.do_lower_case (_self : GPTTokenizerFast) : Bool :=
  true

/-! ## BPE engine, modelled from the spec

The source fragment delegates encoding and persistence to an external
fast-tokenizer engine; the definitions below model that engine from the
specification (sections 3, 4.1, 4.2, 4.4 and 6). -/

/-- Modelled from the spec: the Vocabulary Table, a mapping from token
strings to integer ids, represented as its list of entries. -/
abbrev Vocab := List (String × Nat)

/-- Modelled from the spec: the Merge Rank Table, a mapping from symbol
pairs to their merge rank. -/
abbrev Ranks := List ((String × String) × Nat)

/-- Modelled from the spec: `tokenToId(token) -> Optional<TokenId>`,
first entry whose token matches. -/
def tokenToId : Vocab → String → Option Nat
  | [], _ => none
  | (t, i) :: rest, tok => if t = tok then some i else tokenToId rest tok

/-- Modelled from the spec: `idToToken(id) -> Optional<Token>`,
first entry whose id matches. -/
def idToToken : Vocab → Nat → Option String
  | [], _ => none
  | (t, i) :: rest, n => if i = n then some t else idToToken rest n

/-- Modelled from the spec: `rankOf(left, right) -> Optional<int>`. -/
def rankOf : Ranks → String × String → Option Nat
  | [], _ => none
  | (q, r) :: rest, p => if q = p then some r else rankOf rest p

/-- The adjacent pair of symbols starting at position `i` of a word unit,
when both positions exist. -/
def pairAt : List String → Nat → Option (String × String)
  | a :: b :: _, 0 => some (a, b)
  | _ :: rest, n + 1 => pairAt rest n
  | _, _ => none

/-- Modelled from the spec: all eligible merges of the current symbol
sequence — each adjacent-pair position, starting at index `j`, whose pair
has a rank in the Merge Rank Table, with that rank. -/
def candidatesAux (R : Ranks) : Nat → List String → List (Nat × Nat)
  | j, a :: b :: rest =>
    match rankOf R (a, b) with
    | some r => (j, r) :: candidatesAux R (j + 1) (b :: rest)
    | none => candidatesAux R (j + 1) (b :: rest)
  | _, _ => []

/-- All eligible merges of a symbol sequence: position and rank. -/
def candidates (R : Ranks) (w : List String) : List (Nat × Nat) :=
  candidatesAux R 0 w

/-- Modelled from the spec: select the candidate with the lowest rank,
keeping the earlier (leftmost) one on equal ranks. -/
def pickMin : List (Nat × Nat) → Option (Nat × Nat)
  | [] => none
  | c :: rest =>
    match pickMin rest with
    | none => some c
    | some b => if b.2 < c.2 then some b else some c

/-- Modelled from the spec: the pair merged in one step of the merge
loop — the eligible adjacent pair of globally lowest rank, leftmost on
ties — or `none` when no adjacent pair has a known rank. -/
def bestPair (R : Ranks) (w : List String) : Option (Nat × Nat) :=
  pickMin (candidates R w)

/-- Modelled from the spec: merge the two symbols at positions `i` and
`i + 1` into one new symbol (their concatenation). -/
def mergeAt : List String → Nat → List String
  | a :: b :: rest, 0 => (a ++ b) :: rest
  | a :: rest, n + 1 => a :: mergeAt rest n
  | w, _ => w

/-- Modelled from the spec: the merge loop of the BPE encoder, with an
explicit step budget.  Returns the final symbol sequence and the number
of merge steps performed. -/
def bpeRun (R : Ranks) : Nat → List String → List String × Nat
  | 0, w => (w, 0)
  | fuel + 1, w =>
    match bestPair R w with
    | none => (w, 0)
    | some c =>
      let r := bpeRun R fuel (mergeAt w c.1)
      (r.1, r.2 + 1)

/-- The final symbol sequence of the merge loop on a word unit. -/
def bpeLoop (R : Ranks) (w : List String) : List String :=
  (bpeRun R w.length w).1

/-- The number of merge steps the merge loop performs on a word unit. -/
def bpeSteps (R : Ranks) (w : List String) : Nat :=
  (bpeRun R w.length w).2

/-- Modelled from the spec: the end-of-word marker appended to the last
character of a word unit. -/
def endMarker : String := "</w>"

/-- Append the end-of-word marker to the last symbol of a list. -/
def appendMarker : List String → List String
  | [] => []
  | [s] => [s ++ endMarker]
  | s :: rest => s :: appendMarker rest

/-- Modelled from the spec: the initial state of the merge loop — the
word split into single-character symbols, the word-final marker appended
to the last one. -/
def initSymbols (w : String) : List String :=
  appendMarker (w.toList.map (fun c => String.singleton c))

/-- Split a character stream into words at spaces, the characters of the
word being built carried in reverse in `acc`; empty units are dropped. -/
def splitWordsAux : List Char → List Char → List String
  | [], acc => if acc.isEmpty then [] else [String.mk acc.reverse]
  | c :: cs, acc =>
    if c = ' ' then
      (if acc.isEmpty then [] else [String.mk acc.reverse]) ++ splitWordsAux cs []
    else splitWordsAux cs (c :: acc)

/-- Modelled from the spec: the pre-tokenizer — lowercase the whole
input, then split into word units on whitespace, dropping empty units. -/
def preTokenize (text : String) : List String :=
  splitWordsAux (text.toList.map Char.toLower) []

/-- Modelled from the spec: encode one word unit — run the merge loop,
then look each resulting symbol up in the Vocabulary Table, substituting
the unknown-token id on a miss. -/
def encodeWord (V : Vocab) (R : Ranks) (unkId : Nat) (w : String) : List Nat :=
  (bpeLoop R (initSymbols w)).map (fun s => (tokenToId V s).getD unkId)

/-- Modelled from the spec: `encode(text) -> sequence<TokenId>` —
pre-tokenize, encode each word unit, concatenate. -/
def encode (V : Vocab) (R : Ranks) (unkId : Nat) (text : String) : List Nat :=
  ((preTokenize text).map (encodeWord V R unkId)).flatten

/-! ## Persistence layer, modelled from the spec -/

/-- Modelled from the spec: `save` for the Vocabulary Table writes the
table back deterministically, with stable ordering by id; the file
content is modelled as the ordered entry list. -/
def saveVocab (t : Vocab) : Vocab :=
  List.insertionSort (fun a b => a.2 ≤ b.2) t

/-- Modelled from the spec: `load` for the Vocabulary Table, failing
(`DuplicateIdError`, modelled as `none`) when two tokens map to the
same id. -/
def loadVocab (entries : Vocab) : Option Vocab :=
  if (entries.map Prod.snd).Nodup then some entries else none

/-- Modelled from the spec: `save` for the Merge Rank Table writes the
pair list in rank order (rank = line index). -/
def saveMerges (M : List (String × String)) : List (String × String) := M

/-- Modelled from the spec: `load` for the Merge Rank Table, assigning
rank = line index and failing (`DuplicateRuleError`, modelled as `none`)
on duplicate pairs. -/
def loadMerges (lines : List (String × String)) :
    Option (List (String × String)) :=
  if lines.Nodup then some lines else none

/-- Modelled from the spec: the file-system state the persistence layer
acts on — the set of written file paths and the writable directories. -/
structure FileSystem where
  files : List String
  writableDirs : List String
deriving Repr, DecidableEq

/-- The vocabulary file path for a directory and optional prefix
(file names from `VOCAB_FILES_NAMES`). -/
def vocabFilePath (dir : String) (pfx : Option String) : String :=
  dir ++ "/" ++ (match pfx with | some p => p ++ "-" | none => "") ++ "vocab.json"

/-- The merges file path for a directory and optional prefix. -/
def mergesFilePath (dir : String) (pfx : Option String) : String :=
  dir ++ "/" ++ (match pfx with | some p => p ++ "-" | none => "") ++ "merges.txt"

/-- Modelled from the spec: the external fast-tokenizer model save (the
`self._tokenizer.model.save(save_directory, name=filename_prefix)` call
the source delegates to) — writes the vocabulary file and the merges
file as an atomic pair and returns the list of their paths, or fails
with an I/O error when the directory is not writable, leaving the
file-system state unchanged. -/
def modelSave (fs : FileSystem) (dir : String) (pfx : Option String) :
    FileSystem × Except String (List String) :=
  if dir ∈ fs.writableDirs then
    (⟨vocabFilePath dir pfx :: mergesFilePath dir pfx :: fs.files, fs.writableDirs⟩,
     Except.ok [vocabFilePath dir pfx, mergesFilePath dir pfx])
  else
    (fs, Except.error "I/O error: directory not writable")

/-- Embeds `GPTTokenizerFast.save_vocabulary`: delegate to the model
save and return the resulting file list as a tuple (a pair when the
model returns its two paths). -/
def save_vocabulary (fs : FileSystem) (dir : String) (pfx : Option String) :
    FileSystem × Except String (String × String) :=
  let res := modelSave fs dir pfx
  (res.1,
    match res.2 with
    | Except.ok [v, m] => Except.ok (v, m)
    | Except.ok _ => Except.error "unexpected number of files"
    | Except.error e => Except.error e)

/-! ## Merge-loop lemmas -/

theorem pairAt_nil (n : Nat) : pairAt [] n = none := by
  cases n <;> rfl

theorem pairAt_single (a : String) (n : Nat) : pairAt [a] n = none := by
  cases n <;> rfl

theorem pairAt_cons_succ (a : String) (tail : List String) (n : Nat) :
    pairAt (a :: tail) (n + 1) = pairAt tail n := by
  cases tail <;> rfl

theorem pairAt_lt {w : List String} {k : Nat} {p : String × String}
    (h : pairAt w k = some p) : k + 1 < w.length := by
  induction w generalizing k with
  | nil => rw [pairAt_nil] at h; exact absurd h (by simp)
  | cons a tail ih =>
    cases k with
    | zero =>
      cases tail with
      | nil => rw [pairAt_single] at h; exact absurd h (by simp)
      | cons b rest => simp only [List.length_cons]; omega
    | succ n =>
      rw [pairAt_cons_succ] at h
      have := ih h
      simp only [List.length_cons]; omega

theorem candidatesAux_cons (R : Ranks) (j : Nat) (a b : String) (rest : List String) :
    candidatesAux R j (a :: b :: rest) =
      match rankOf R (a, b) with
      | some r => (j, r) :: candidatesAux R (j + 1) (b :: rest)
      | none => candidatesAux R (j + 1) (b :: rest) := rfl

theorem mem_candidatesAux (R : Ranks) :
    ∀ (w : List String) (j i r : Nat),
      (i, r) ∈ candidatesAux R j w ↔
        ∃ k p, i = j + k ∧ pairAt w k = some p ∧ rankOf R p = some r := by
  intro w
  induction w with
  | nil =>
    intro j i r
    simp only [candidatesAux, List.not_mem_nil, false_iff]
    rintro ⟨k, p, _, hp, _⟩
    rw [pairAt_nil] at hp; exact absurd hp (by simp)
  | cons a tail ih =>
    cases tail with
    | nil =>
      intro j i r
      simp only [candidatesAux, List.not_mem_nil, false_iff]
      rintro ⟨k, p, _, hp, _⟩
      rw [pairAt_single] at hp; exact absurd hp (by simp)
    | cons b rest =>
      intro j i r
      rw [candidatesAux_cons]
      constructor
      · intro h
        cases hr : rankOf R (a, b) with
        | some r0 =>
          rw [hr] at h
          rcases List.mem_cons.mp h with h0 | h1
          · have hji : i = j ∧ r = r0 := by
              constructor <;> [exact congrArg Prod.fst h0; exact congrArg Prod.snd h0]
            exact ⟨0, (a, b), by omega, rfl, by rw [hji.2]; exact hr⟩
          · obtain ⟨k, p, hik, hp, hrk⟩ := (ih (j + 1) i r).mp h1
            exact ⟨k + 1, p, by omega, by rw [pairAt_cons_succ]; exact hp, hrk⟩
        | none =>
          rw [hr] at h
          obtain ⟨k, p, hik, hp, hrk⟩ := (ih (j + 1) i r).mp h
          exact ⟨k + 1, p, by omega, by rw [pairAt_cons_succ]; exact hp, hrk⟩
      · rintro ⟨k, p, hik, hp, hrk⟩
        cases k with
        | zero =>
          have hpab : p = (a, b) := by
            have : pairAt (a :: b :: rest) 0 = some (a, b) := rfl
            rw [this] at hp; exact (Option.some_inj.mp hp).symm
          subst hpab
          rw [hrk]
          exact List.mem_cons.mpr (Or.inl (by simp [hik]))
        | succ n =>
          rw [pairAt_cons_succ] at hp
          have hmem : (i, r) ∈ candidatesAux R (j + 1) (b :: rest) :=
            (ih (j + 1) i r).mpr ⟨n, p, by omega, hp, hrk⟩
          cases hr : rankOf R (a, b) with
          | some r0 => exact List.mem_cons.mpr (Or.inr hmem)
          | none => exact hmem

theorem mem_candidatesAux_le {R : Ranks} {w : List String} {j i r : Nat}
    (h : (i, r) ∈ candidatesAux R j w) : j ≤ i := by
  obtain ⟨k, p, hik, _, _⟩ := (mem_candidatesAux R w j i r).mp h
  omega

theorem candidatesAux_pairwise (R : Ranks) :
    ∀ (w : List String) (j : Nat),
      (candidatesAux R j w).Pairwise (fun a b => a.1 < b.1) := by
  intro w
  induction w with
  | nil => intro j; exact List.Pairwise.nil
  | cons a tail ih =>
    cases tail with
    | nil => intro j; exact List.Pairwise.nil
    | cons b rest =>
      intro j
      rw [candidatesAux_cons]
      cases hr : rankOf R (a, b) with
      | some r0 =>
        refine List.Pairwise.cons ?_ (ih (j + 1))
        intro x hx
        have := mem_candidatesAux_le (w := b :: rest) (j := j + 1)
          (i := x.1) (r := x.2) (by simpa using hx)
        simpa using by omega
      | none => exact ih (j + 1)

theorem pickMin_eq_none {l : List (Nat × Nat)} : pickMin l = none ↔ l = [] := by
  cases l with
  | nil => simp [pickMin]
  | cons c rest =>
    simp only [pickMin]
    cases pickMin rest with
    | none => simp
    | some b => by_cases hb : b.2 < c.2 <;> simp [hb]

theorem pickMin_mem : ∀ {l : List (Nat × Nat)} {c : Nat × Nat},
    pickMin l = some c → c ∈ l := by
  intro l
  induction l with
  | nil => intro c h; simp [pickMin] at h
  | cons a rest ih =>
    intro c h
    simp only [pickMin] at h
    cases hp : pickMin rest with
    | none =>
      rw [hp] at h
      exact List.mem_cons.mpr (Or.inl (Option.some_inj.mp h).symm)
    | some b =>
      rw [hp] at h
      have h9 : (if b.2 < a.2 then some b else some a) = some c := h
      by_cases hb : b.2 < a.2
      · rw [if_pos hb] at h9
        rw [← Option.some_inj.mp h9]
        exact List.mem_cons.mpr (Or.inr (ih hp))
      · rw [if_neg hb] at h9
        exact List.mem_cons.mpr (Or.inl (Option.some_inj.mp h9).symm)

theorem pickMin_min : ∀ {l : List (Nat × Nat)} {c : Nat × Nat},
    pickMin l = some c → ∀ d ∈ l, c.2 ≤ d.2 := by
  intro l
  induction l with
  | nil => intro c h; simp [pickMin] at h
  | cons a rest ih =>
    intro c h d hd
    simp only [pickMin] at h
    cases hp : pickMin rest with
    | none =>
      rw [hp] at h
      have hc : c = a := (Option.some_inj.mp h).symm
      have hr : rest = [] := pickMin_eq_none.mp hp
      subst hc; subst hr
      rcases List.mem_cons.mp hd with h0 | h1
      · rw [h0]
      · exact absurd h1 (by simp)
    | some b =>
      rw [hp] at h
      have h9 : (if b.2 < a.2 then some b else some a) = some c := h
      by_cases hb : b.2 < a.2
      · rw [if_pos hb] at h9
        have hc : c = b := (Option.some_inj.mp h9).symm
        subst hc
        rcases List.mem_cons.mp hd with h0 | h1
        · rw [h0]; omega
        · exact ih hp d h1
      · rw [if_neg hb] at h9
        have hc : c = a := (Option.some_inj.mp h9).symm
        subst hc
        rcases List.mem_cons.mp hd with h0 | h1
        · rw [h0]
        · have := ih hp d h1; omega

theorem pickMin_leftmost : ∀ {l : List (Nat × Nat)} {c : Nat × Nat},
    l.Pairwise (fun a b => a.1 < b.1) → pickMin l = some c →
      ∀ d ∈ l, d.2 = c.2 → c.1 ≤ d.1 := by
  intro l
  induction l with
  | nil => intro c _ h; simp [pickMin] at h
  | cons a rest ih =>
    intro c hpw h d hd hd2
    have hhead : ∀ x ∈ rest, a.1 < x.1 := (List.pairwise_cons.mp hpw).1
    have htail : rest.Pairwise (fun a b => a.1 < b.1) := (List.pairwise_cons.mp hpw).2
    simp only [pickMin] at h
    cases hp : pickMin rest with
    | none =>
      rw [hp] at h
      have hc : c = a := (Option.some_inj.mp h).symm
      have hr : rest = [] := pickMin_eq_none.mp hp
      subst hc; subst hr
      rcases List.mem_cons.mp hd with h0 | h1
      · rw [h0]
      · exact absurd h1 (by simp)
    | some b =>
      rw [hp] at h
      have h9 : (if b.2 < a.2 then some b else some a) = some c := h
      by_cases hb : b.2 < a.2
      · rw [if_pos hb] at h9
        have hc : c = b := (Option.some_inj.mp h9).symm
        subst hc
        rcases List.mem_cons.mp hd with h0 | h1
        · exfalso; rw [h0] at hd2; omega
        · exact ih htail hp d h1 hd2
      · rw [if_neg hb] at h9
        have hc : c = a := (Option.some_inj.mp h9).symm
        subst hc
        rcases List.mem_cons.mp hd with h0 | h1
        · rw [h0]
        · exact Nat.le_of_lt (hhead d h1)

theorem bestPair_lt {R : Ranks} {w : List String} {c : Nat × Nat}
    (h : bestPair R w = some c) : c.1 + 1 < w.length := by
  have hm : (c.1, c.2) ∈ candidates R w := by
    have := pickMin_mem h; simpa using this
  obtain ⟨k, p, hik, hp, _⟩ := (mem_candidatesAux R w 0 c.1 c.2).mp hm
  have := pairAt_lt hp
  omega

theorem mergeAt_length : ∀ (w : List String) (i : Nat), i + 1 < w.length →
    (mergeAt w i).length + 1 = w.length := by
  intro w
  induction w with
  | nil => intro i h; simp at h
  | cons a tail ih =>
    intro i h
    cases i with
    | zero =>
      cases tail with
      | nil => simp at h
      | cons b rest => simp [mergeAt]
    | succ n =>
      have : mergeAt (a :: tail) (n + 1) = a :: mergeAt tail n := by
        cases tail <;> rfl
      rw [this]
      have hlt : n + 1 < tail.length := by
        simp only [List.length_cons] at h; omega
      have := ih n hlt
      simp only [List.length_cons]; omega

theorem bpeRun_steps_le (R : Ranks) :
    ∀ (fuel : Nat) (w : List String), (bpeRun R fuel w).2 ≤ w.length - 1 := by
  intro fuel
  induction fuel with
  | zero => intro w; simp [bpeRun]
  | succ n ih =>
    intro w
    simp only [bpeRun]
    cases hb : bestPair R w with
    | none => simp
    | some c =>
      have h1 := bestPair_lt hb
      have h2 := mergeAt_length w c.1 h1
      have h3 := ih (mergeAt w c.1)
      simp only []
      omega

theorem bpeRun_fix (R : Ranks) :
    ∀ (fuel : Nat) (w : List String), w.length ≤ fuel →
      bestPair R ((bpeRun R fuel w).1) = none := by
  intro fuel
  induction fuel with
  | zero =>
    intro w hw
    have hnil : w = [] := List.length_eq_zero.mp (Nat.le_zero.mp hw)
    subst hnil
    rfl
  | succ n ih =>
    intro w hw
    simp only [bpeRun]
    cases hb : bestPair R w with
    | none => simpa using hb
    | some c =>
      have h1 := bestPair_lt hb
      have h2 := mergeAt_length w c.1 h1
      exact ih (mergeAt w c.1) (by omega)

theorem bpeLoop_of_none {R : Ranks} {w : List String}
    (h : bestPair R w = none) : bpeLoop R w = w := by
  unfold bpeLoop
  cases hl : w.length with
  | zero => simp [bpeRun]
  | succ n => simp [bpeRun, h]

theorem bpeLoop_of_some {R : Ranks} {w : List String} {c : Nat × Nat}
    (h : bestPair R w = some c) : bpeLoop R w = bpeLoop R (mergeAt w c.1) := by
  have h1 := bestPair_lt h
  have h2 := mergeAt_length w c.1 h1
  unfold bpeLoop
  rw [← h2]
  simp [bpeRun, h]

theorem appendMarker_length : ∀ (l : List String),
    (appendMarker l).length = l.length := by
  intro l
  induction l with
  | nil => rfl
  | cons s rest ih =>
    cases rest with
    | nil => rfl
    | cons t r2 =>
      have : appendMarker (s :: t :: r2) = s :: appendMarker (t :: r2) := rfl
      rw [this, List.length_cons, List.length_cons, ih]

theorem initSymbols_length (w : String) : (initSymbols w).length = w.length := by
  unfold initSymbols
  rw [appendMarker_length, List.length_map]
  rfl

/-! ## Vocabulary-lookup lemmas -/

theorem tokenToId_mem : ∀ {t : Vocab} {tok : String} {n : Nat},
    tokenToId t tok = some n → (tok, n) ∈ t := by
  intro t
  induction t with
  | nil => intro tok n h; simp [tokenToId] at h
  | cons e rest ih =>
    intro tok n h
    obtain ⟨t0, i0⟩ := e
    simp only [tokenToId] at h
    by_cases he : t0 = tok
    · rw [if_pos he] at h
      have hi : i0 = n := Option.some_inj.mp h
      subst hi; subst he
      exact List.mem_cons.mpr (Or.inl rfl)
    · rw [if_neg he] at h
      exact List.mem_cons.mpr (Or.inr (ih h))

theorem tokenToId_of_mem : ∀ {t : Vocab}, (t.map Prod.fst).Nodup →
    ∀ {tok : String} {n : Nat}, (tok, n) ∈ t → tokenToId t tok = some n := by
  intro t
  induction t with
  | nil => intro _ tok n h; exact absurd h (by simp)
  | cons e rest ih =>
    intro hn tok n h
    obtain ⟨t0, i0⟩ := e
    have hn1 : t0 ∉ rest.map Prod.fst := by
      simp only [List.map_cons, List.nodup_cons] at hn; exact hn.1
    have hn2 : (rest.map Prod.fst).Nodup := by
      simp only [List.map_cons, List.nodup_cons] at hn; exact hn.2
    simp only [tokenToId]
    rcases List.mem_cons.mp h with h0 | h1
    · have ht : t0 = tok := (congrArg Prod.fst h0).symm
      have hi : i0 = n := (congrArg Prod.snd h0).symm
      rw [if_pos ht, hi]
    · by_cases he : t0 = tok
      · exfalso
        apply hn1
        subst he
        exact List.mem_map.mpr ⟨(t0, n), h1, rfl⟩
      · rw [if_neg he]
        exact ih hn2 h1

theorem tokenToId_eq_none : ∀ {t : Vocab} {tok : String},
    tokenToId t tok = none ↔ tok ∉ t.map Prod.fst := by
  intro t
  induction t with
  | nil => intro tok; simp [tokenToId]
  | cons e rest ih =>
    intro tok
    obtain ⟨t0, i0⟩ := e
    simp only [tokenToId, List.map_cons, List.mem_cons]
    by_cases he : t0 = tok
    · rw [if_pos he]
      simp [he]
    · rw [if_neg he, ih]
      constructor
      · rintro h (hc | hc)
        · exact he hc.symm
        · exact h hc
      · intro h hc
        exact h (Or.inr hc)

theorem idToToken_mem : ∀ {t : Vocab} {n : Nat} {tok : String},
    idToToken t n = some tok → (tok, n) ∈ t := by
  intro t
  induction t with
  | nil => intro n tok h; simp [idToToken] at h
  | cons e rest ih =>
    intro n tok h
    obtain ⟨t0, i0⟩ := e
    simp only [idToToken] at h
    by_cases he : i0 = n
    · rw [if_pos he] at h
      have ht : t0 = tok := Option.some_inj.mp h
      subst ht; subst he
      exact List.mem_cons.mpr (Or.inl rfl)
    · rw [if_neg he] at h
      exact List.mem_cons.mpr (Or.inr (ih h))

theorem idToToken_of_mem : ∀ {t : Vocab}, (t.map Prod.snd).Nodup →
    ∀ {tok : String} {n : Nat}, (tok, n) ∈ t → idToToken t n = some tok := by
  intro t
  induction t with
  | nil => intro _ tok n h; exact absurd h (by simp)
  | cons e rest ih =>
    intro hn tok n h
    obtain ⟨t0, i0⟩ := e
    have hn1 : i0 ∉ rest.map Prod.snd := by
      simp only [List.map_cons, List.nodup_cons] at hn; exact hn.1
    have hn2 : (rest.map Prod.snd).Nodup := by
      simp only [List.map_cons, List.nodup_cons] at hn; exact hn.2
    simp only [idToToken]
    rcases List.mem_cons.mp h with h0 | h1
    · have ht : t0 = tok := (congrArg Prod.fst h0).symm
      have hi : i0 = n := (congrArg Prod.snd h0).symm
      rw [if_pos hi, ht]
    · by_cases he : i0 = n
      · exfalso
        apply hn1
        subst he
        exact List.mem_map.mpr ⟨(tok, i0), h1, rfl⟩
      · rw [if_neg he]
        exact ih hn2 h1

theorem idToToken_eq_none : ∀ {t : Vocab} {n : Nat},
    idToToken t n = none ↔ n ∉ t.map Prod.snd := by
  intro t
  induction t with
  | nil => intro n; simp [idToToken]
  | cons e rest ih =>
    intro n
    obtain ⟨t0, i0⟩ := e
    simp only [idToToken, List.map_cons, List.mem_cons]
    by_cases he : i0 = n
    · rw [if_pos he]
      simp [he]
    · rw [if_neg he, ih]
      constructor
      · rintro h (hc | hc)
        · exact he hc.symm
        · exact h hc
      · intro h hc
        exact h (Or.inr hc)

theorem tokenToId_perm {t t2 : Vocab} (hp : t.Perm t2)
    (htok : (t.map Prod.fst).Nodup) (tok : String) :
    tokenToId t2 tok = tokenToId t tok := by
  have htok2 : (t2.map Prod.fst).Nodup := ((hp.map Prod.fst).nodup_iff).mp htok
  cases he : tokenToId t tok with
  | none =>
    rw [tokenToId_eq_none] at he ⊢
    intro hc
    exact he (((hp.map Prod.fst).mem_iff).mpr hc)
  | some n =>
    have hm := tokenToId_mem he
    exact tokenToId_of_mem htok2 (hp.mem_iff.mp hm)

theorem idToToken_perm {t t2 : Vocab} (hp : t.Perm t2)
    (hid : (t.map Prod.snd).Nodup) (n : Nat) :
    idToToken t2 n = idToToken t n := by
  have hid2 : (t2.map Prod.snd).Nodup := ((hp.map Prod.snd).nodup_iff).mp hid
  cases he : idToToken t n with
  | none =>
    rw [idToToken_eq_none] at he ⊢
    intro hc
    exact he (((hp.map Prod.snd).mem_iff).mpr hc)
  | some tok =>
    have hm := idToToken_mem he
    exact idToToken_of_mem hid2 (hp.mem_iff.mp hm)

/-! ## Claim theorems about the BPE engine -/

/-- C3: in every step of the merge loop, among all adjacent pairs of the
current symbol sequence that have a rank in the Merge Rank Table, the
pair with the globally lowest rank is merged; on equal ranks the
leftmost eligible pair is merged; when no adjacent pair has a known
rank, the loop terminates (returns the sequence unchanged). -/
theorem bpe_step_lowest_rank_leftmost (R : Ranks) (w : List String) :
    (bestPair R w = none →
      (∀ i p, pairAt w i = some p → rankOf R p = none) ∧ bpeLoop R w = w) ∧
    (∀ i r, bestPair R w = some (i, r) →
      (∃ p, pairAt w i = some p ∧ rankOf R p = some r) ∧
      (∀ j q s, pairAt w j = some q → rankOf R q = some s →
        r ≤ s ∧ (s = r → i ≤ j)) ∧
      bpeLoop R w = bpeLoop R (mergeAt w i)) := by
  constructor
  · intro h
    refine ⟨?_, bpeLoop_of_none h⟩
    intro i p hp
    cases hr : rankOf R p with
    | none => rfl
    | some s =>
      exfalso
      have hmem : (i, s) ∈ candidates R w :=
        (mem_candidatesAux R w 0 i s).mpr ⟨i, p, by omega, hp, hr⟩
      have hnil : candidates R w = [] := pickMin_eq_none.mp h
      rw [hnil] at hmem
      exact absurd hmem (by simp)
  · intro i r h
    have hm : (i, r) ∈ candidates R w := pickMin_mem h
    obtain ⟨k, p, hik, hp, hr⟩ := (mem_candidatesAux R w 0 i r).mp hm
    have hk : k = i := by omega
    subst hk
    refine ⟨⟨p, hp, hr⟩, ?_, bpeLoop_of_some h⟩
    intro j q s hq hs
    have hmj : (j, s) ∈ candidates R w :=
      (mem_candidatesAux R w 0 j s).mpr ⟨j, q, by omega, hq, hs⟩
    constructor
    · exact pickMin_min h (j, s) hmj
    · intro hsr
      exact pickMin_leftmost (candidatesAux_pairwise R w 0) h (j, s) hmj hsr

/-- C8: for every input word, the merge loop terminates after at most
`|word| - 1` merge steps (and the state it stops in admits no further
merge), so every encode call completes. -/
theorem bpe_merge_loop_terminates (R : Ranks) (word : String) :
    bpeSteps R (initSymbols word) ≤ word.length - 1 ∧
    bestPair R (bpeLoop R (initSymbols word)) = none := by
  constructor
  · have h := bpeRun_steps_le R (initSymbols word).length (initSymbols word)
    unfold bpeSteps
    rw [← initSymbols_length word]
    exact h
  · exact bpeRun_fix R (initSymbols word).length (initSymbols word) (Nat.le_refl _)

/-- C1: for every input text and every symbol produced by the merge loop
on one of its word units, if the symbol is absent from the Vocabulary
Table, `encode` substitutes the configured unknown-token id for it at
that position and that id reaches the overall output; `encode` is a
total function, so it never raises for well-formed text. -/
theorem encode_unknown_token_fallback (V : Vocab) (R : Ranks) (unkId : Nat)
    (text w : String) (i : Nat) (s : String)
    (hw : w ∈ preTokenize text)
    (hs : (bpeLoop R (initSymbols w))[i]? = some s)
    (hmiss : tokenToId V s = none) :
    (encodeWord V R unkId w)[i]? = some unkId ∧
    unkId ∈ encode V R unkId text := by
  have hword : (encodeWord V R unkId w)[i]? = some unkId := by
    unfold encodeWord
    rw [List.getElem?_map, hs]
    simp [hmiss]
  refine ⟨hword, ?_⟩
  have hmemw : unkId ∈ encodeWord V R unkId w := by
    have := List.getElem?_mem hword
    exact this
  unfold encode
  rw [List.mem_flatten]
  exact ⟨encodeWord V R unkId w, List.mem_map.mpr ⟨w, hw, rfl⟩, hmemw⟩

/-- C2: encoding is deterministic and pure — for fixed (vocabulary,
merge-rank) tables and unknown id, repeated calls of `encode` on the
same text produce identical id sequences (in the model `encode` is a
mathematical function of exactly these arguments). -/
theorem encode_deterministic (V : Vocab) (R : Ranks) (unkId : Nat) (text : String) :
    encode V R unkId text = encode V R unkId text ∧
    (List.replicate 2 text).map (encode V R unkId) =
      List.replicate 2 (encode V R unkId text) :=
  ⟨rfl, by rw [List.map_replicate]⟩

/-- C4: the `do_lower_case` property of `GPTTokenizerFast` returns `True`
on every instance, unconditionally. -/
theorem do_lower_case_always_true (t : GPTTokenizerFast) :
    t.do_lower_case = true := rfl

/-- C9: the constructor accepts optional `vocab_file`, `merges_file` and
`tokenizer_file` arguments (any `Option String`, stored as given), its
unknown-token parameter defaults to `"<unk>"` when not supplied, and a
supplied unknown token is stored as given. -/
theorem init_optional_files_and_unk_default
    (v m tf : Option String) :
    (GPTTokenizerFast.init v m tf none).vocab_file = v ∧
    (GPTTokenizerFast.init v m tf none).merges_file = m ∧
    (GPTTokenizerFast.init v m tf none).tokenizer_file = tf ∧
    (GPTTokenizerFast.init v m tf none).unk_token = "<unk>" ∧
    ∀ u : String, (GPTTokenizerFast.init v m tf (some u)).unk_token = u :=
  ⟨rfl, rfl, rfl, rfl, fun _ => rfl⟩

/-- C10: the maximum model input size configured for the `"openai-gpt"`
pretrained checkpoint in `max_model_input_sizes` is exactly 512. -/
theorem max_model_input_sizes_openai_gpt :
    List.lookup "openai-gpt" GPTTokenizerFast.max_model_input_sizes = some 512 := by
  decide

/-- C7: saving the Vocabulary Table and the Merge Rank Table and then
loading the saved files yields tables equal to the originals — equal as
mappings for the vocabulary (whose saved entry list is reordered by id)
and equal outright for the merge list — for any tables with unique ids,
unique tokens and unique merge pairs. -/
theorem save_load_roundtrip (t : Vocab) (M : List (String × String))
    (hid : (t.map Prod.snd).Nodup) (htok : (t.map Prod.fst).Nodup)
    (hM : M.Nodup) :
    (∃ t2, loadVocab (saveVocab t) = some t2 ∧
      (∀ tok, tokenToId t2 tok = tokenToId t tok) ∧
      (∀ n, idToToken t2 n = idToToken t n)) ∧
    loadMerges (saveMerges M) = some M := by
  have hperm : (saveVocab t).Perm t := List.perm_insertionSort _ t
  have hid2 : ((saveVocab t).map Prod.snd).Nodup :=
    ((hperm.map Prod.snd).nodup_iff).mpr hid
  refine ⟨⟨saveVocab t, ?_, ?_, ?_⟩, ?_⟩
  · simp [loadVocab, hid2]
  · intro tok
    exact tokenToId_perm hperm.symm htok tok
  · intro n
    exact idToToken_perm hperm.symm hid n
  · simp [loadMerges, saveMerges, hM]

/-- Witness for C7 at a concrete vocabulary and merge list. -/
theorem save_load_roundtrip_witness :
    (([("b", 1), ("a", 0)] : Vocab).map Prod.snd).Nodup ∧
    (([("b", 1), ("a", 0)] : Vocab).map Prod.fst).Nodup ∧
    ([("a", "b")] : List (String × String)).Nodup ∧
    ((∃ t2, loadVocab (saveVocab [("b", 1), ("a", 0)]) = some t2 ∧
      (∀ tok, tokenToId t2 tok = tokenToId [("b", 1), ("a", 0)] tok) ∧
      (∀ n, idToToken t2 n = idToToken [("b", 1), ("a", 0)] n)) ∧
    loadMerges (saveMerges [("a", "b")]) = some [("a", "b")]) :=
  ⟨by decide, by decide, by decide,
   save_load_roundtrip [("b", 1), ("a", 0)] [("a", "b")]
     (by decide) (by decide) (by decide)⟩

/-- C5: `save_vocabulary` is all-or-nothing — for every file-system
state, directory and prefix, either the call succeeds and both the
vocabulary file and the merges file are present in the resulting state,
or it fails and the file-system state is completely unchanged, so it
never writes one file without the other. -/
theorem save_vocabulary_atomic_pair (fs : FileSystem) (dir : String)
    (pfx : Option String) :
    ((save_vocabulary fs dir pfx).2 =
        Except.ok (vocabFilePath dir pfx, mergesFilePath dir pfx) ∧
      vocabFilePath dir pfx ∈ (save_vocabulary fs dir pfx).1.files ∧
      mergesFilePath dir pfx ∈ (save_vocabulary fs dir pfx).1.files) ∨
    ((∃ e, (save_vocabulary fs dir pfx).2 = Except.error e) ∧
      (save_vocabulary fs dir pfx).1 = fs) := by
  by_cases h : dir ∈ fs.writableDirs
  · left
    refine ⟨?_, ?_, ?_⟩ <;> simp [save_vocabulary, modelSave, h]
  · right
    refine ⟨⟨"I/O error: directory not writable", ?_⟩, ?_⟩ <;>
      simp [save_vocabulary, modelSave, h]

/-- C6: for every successful call, `save_vocabulary` returns exactly a
pair of paths: the vocabulary file path and the merges file path. -/
theorem save_vocabulary_returns_path_pair (fs : FileSystem) (dir : String)
    (pfx : Option String) (paths : String × String)
    (h : (save_vocabulary fs dir pfx).2 = Except.ok paths) :
    paths = (vocabFilePath dir pfx, mergesFilePath dir pfx) := by
  by_cases hw : dir ∈ fs.writableDirs
  · simp [save_vocabulary, modelSave, hw] at h
    exact h.symm
  · simp [save_vocabulary, modelSave, hw] at h

/-- Witness for C6 at a concrete writable file system. -/
theorem save_vocabulary_returns_path_pair_witness :
    (save_vocabulary ⟨[], ["d"]⟩ "d" none).2 =
      Except.ok ("d/vocab.json", "d/merges.txt") ∧
    ("d/vocab.json", "d/merges.txt") =
      (vocabFilePath "d" none, mergesFilePath "d" none) :=
  ⟨rfl, save_vocabulary_returns_path_pair ⟨[], ["d"]⟩ "d" none
    ("d/vocab.json", "d/merges.txt") rfl⟩

/-- Witness for C1 at a concrete vocabulary, rank table and text. -/
theorem encode_unknown_token_fallback_witness :
    "ab" ∈ preTokenize "ab" ∧
    (bpeLoop [] (initSymbols "ab"))[0]? = some "a" ∧
    tokenToId [("x", 0)] "a" = none ∧
    ((encodeWord [("x", 0)] [] 7 "ab")[0]? = some 7 ∧
      7 ∈ encode [("x", 0)] [] 7 "ab") :=
  ⟨by decide, by decide, by decide,
   encode_unknown_token_fallback [("x", 0)] [] 7 "ab" "ab" 0 "a"
     (by decide) (by decide) (by decide)⟩
